import Mathlib

/-!
Verification of the thread-safe hashmap in `ts_hashmap.c` / `ts_hashmap.h`.

The map is an array of `capacity` singly linked chains of `(key, value)`
entries (separate chaining).  We embed the sequential (single-thread)
semantics of the C code: pthread mutex acquire/release calls have no
observable effect in a single-threaded execution beyond the bookkeeping
counters `numOps` and `numThreads`, which we model explicitly, exactly as
`acquireBucketAccess` / `releaseBucketAccess` mutate them.

C `int` values are modelled as `Int`; no arithmetic on keys or values can
overflow in the modelled operations except the cast `(unsigned int) key`,
which is modelled explicitly as `key % 2^32`.  The C sentinel `INT_MAX`
is the concrete value 2147483647.

A bucket chain is a `List (Int × Int)` whose head is the head of the C
linked list.  The table is a `List` of chains of length `capacity`
(`calloc` zero-initialises every slot to the empty chain).
-/

/-- C `INT_MAX`, the "not found" sentinel of the map. -/
def INT_MAX : Int := 2147483647

/-- `2^32`, the modulus of the C cast `(unsigned int) key`. -/
def UINT_MOD : Int := 4294967296

/-- Bucket index: `((unsigned int) key) % capacity` (ts_hashmap.c lines 71,
99, 146).  The cast to `unsigned int` reduces the key modulo `2^32`; the
subsequent `%` is taken on non-negative values, so it is plain `Nat.mod`. -/
def idx (key : Int) (capacity : Nat) : Nat :=
  (key % UINT_MOD).toNat % capacity

/-- The hashmap state (`ts_hashmap_t`, ts_hashmap.h lines 16-26).  The
mutex fields hold no data relevant to sequential semantics and are not
modelled; `numOps` and `numThreads` are the two bookkeeping counters. -/
structure Map where
  table : List (List (Int × Int))
  numOps : Int
  capacity : Nat
  size : Int
  numThreads : Int
deriving DecidableEq

/-- `initmap` (ts_hashmap.c lines 14-35): `calloc` gives a table of
`capacity` empty chains; `size`, `numOps`, `numThreads` start at 0. -/
def initmap (capacity : Nat) : Map :=
  { table := List.replicate capacity []
    numOps := 0
    capacity := capacity
    size := 0
    numThreads := 0 }

/-- `acquireBucketAccess` (lines 38-53): takes the global and bucket
locks, increments `numOps` and `numThreads`.  Sequentially, only the two
counter increments are observable. -/
def acquireBucketAccess (m : Map) (_bucketIdx : Nat) : Map :=
  { m with numOps := m.numOps + 1, numThreads := m.numThreads + 1 }

/-- `releaseBucketAccess` (lines 55-62): releases the bucket lock and
decrements `numThreads`. -/
def releaseBucketAccess (m : Map) (_bucketIdx : Nat) : Map :=
  { m with numThreads := m.numThreads - 1 }

/-- `atomic_mutate_size` (lines 242-247): under `sizeLock`, increment
`size` if `isInc` is nonzero, else decrement it. -/
def atomic_mutate_size (m : Map) (isInc : Bool) : Map :=
  { m with size := if isInc then m.size + 1 else m.size - 1 }

/-- The chain scan of `get` (lines 76-85): first entry with a matching
key gives its value; reaching the end of the chain gives `INT_MAX`. -/
def chainGet (key : Int) : List (Int × Int) → Int
  | [] => INT_MAX
  | (k, v) :: rest => if k = key then v else chainGet key rest

/-- The chain scan of `put` (lines 104-114): if some entry has a matching
key, overwrite its value in place and report the old value (`some (old,
updated chain)`); otherwise `none` (the key is new in this chain). -/
def chainPut (key value : Int) : List (Int × Int) → Option (Int × List (Int × Int))
  | [] => none
  | (k, v) :: rest =>
    if k = key then some (v, (k, value) :: rest)
    else
      match chainPut key value rest with
      | some (old, rest2) => some (old, (k, v) :: rest2)
      | none => none

/-- The chain scan of `del` (lines 151-185): unlink the first entry with
a matching key and report its value, or `none` when the chain is empty or
the key is absent.  The three C paths (empty chain, head match, interior
match with a trailing pointer) all compute exactly this. -/
def chainDel (key : Int) : List (Int × Int) → Option (Int × List (Int × Int))
  | [] => none
  | (k, v) :: rest =>
    if k = key then some (v, rest)
    else
      match chainDel key rest with
      | some (old, rest2) => some (old, (k, v) :: rest2)
      | none => none

/-- `get` (lines 70-89). -/
def get (m : Map) (key : Int) : Int × Map :=
  let bucketIdx := idx key m.capacity
  let m1 := acquireBucketAccess m bucketIdx
  let r := chainGet key (m1.table.getD bucketIdx [])
  (r, releaseBucketAccess m1 bucketIdx)

/-- `put` (lines 98-137).  On a found key the value is overwritten in
place; on a new key a fresh entry is pushed as the chain head, the bucket
is released and `size` is incremented.  Lines 130-135 then compute
`loadFactor = size / capacity` and compare it with `MAX_LOAD_FACTOR`, but
the body of the `if` is empty — the `rehash(map)` call on line 133 is
commented out — so the check has no effect on the state. -/
def put (m : Map) (key value : Int) : Int × Map :=
  let bucketIdx := idx key m.capacity
  let m1 := acquireBucketAccess m bucketIdx
  match chainPut key value (m1.table.getD bucketIdx []) with
  | some (old, newChain) =>
    (old, releaseBucketAccess { m1 with table := m1.table.set bucketIdx newChain } bucketIdx)
  | none =>
    let m2 := { m1 with table := m1.table.set bucketIdx ((key, value) :: m1.table.getD bucketIdx []) }
    let m3 := atomic_mutate_size (releaseBucketAccess m2 bucketIdx) true
    (INT_MAX, m3)

/-- `del` (lines 145-189). -/
def del (m : Map) (key : Int) : Int × Map :=
  let bucketIdx := idx key m.capacity
  let m1 := acquireBucketAccess m bucketIdx
  match chainDel key (m1.table.getD bucketIdx []) with
  | some (old, newChain) =>
    let m2 := { m1 with table := m1.table.set bucketIdx newChain }
    (old, atomic_mutate_size (releaseBucketAccess m2 bucketIdx) false)
  | none => (INT_MAX, releaseBucketAccess m1 bucketIdx)

/-- A single map operation of the public interface. -/
inductive Op where
  | oput (k v : Int)
  | oget (k : Int)
  | odel (k : Int)
deriving DecidableEq

/-- Dispatch one operation on the concrete map. -/
def step (m : Map) : Op → Int × Map
  | .oput k v => put m k v
  | .oget k => get m k
  | .odel k => del m k

/-- Run a sequence of operations on the concrete map, collecting the
returned values in order. -/
def runC : Map → List Op → List Int × Map
  | m, [] => ([], m)
  | m, op :: ops =>
    let p := step m op
    let q := runC p.2 ops
    (p.1 :: q.1, q.2)

/-- States reachable from a freshly constructed map with positive
capacity by a single-threaded sequence of put/get/del operations. -/
def Reachable (m : Map) : Prop :=
  ∃ cap ops, 0 < cap ∧ m = (runC (initmap cap) ops).2

/-! ### Spec-side reference model

The spec's reference model (§8): an ordered list of key-value pairs with
last-write-wins semantics.  `aput` prepends (the newest write shadows any
older pair with the same key); `aget` returns the first match or the
sentinel; `adel` removes every pair with the key. -/

/-- Reference lookup: the value of the first pair with the key, else the
sentinel. -/
def aget : List (Int × Int) → Int → Int
  | [], _ => INT_MAX
  | (k, v) :: rest, key => if k = key then v else aget rest key

/-- Reference removal: drop every pair carrying the key. -/
def aremove (key : Int) : List (Int × Int) → List (Int × Int)
  | [] => []
  | (k, v) :: rest =>
    if k = key then aremove key rest else (k, v) :: aremove key rest

/-- Reference put: report the previous binding (sentinel if none) and
prepend the new pair, which shadows any older one. -/
def aput (am : List (Int × Int)) (k v : Int) : Int × List (Int × Int) :=
  (aget am k, (k, v) :: am)

/-- Reference delete: report the removed binding (sentinel if none). -/
def adel (am : List (Int × Int)) (k : Int) : Int × List (Int × Int) :=
  (aget am k, aremove k am)

/-- Dispatch one operation on the reference model. -/
def astep (am : List (Int × Int)) : Op → Int × List (Int × Int)
  | .oput k v => aput am k v
  | .oget k => (aget am k, am)
  | .odel k => adel am k

/-- Run a sequence of operations on the reference model. -/
def runA : List (Int × Int) → List Op → List Int × List (Int × Int)
  | am, [] => ([], am)
  | am, op :: ops =>
    let p := astep am op
    let q := runA p.2 ops
    (p.1 :: q.1, q.2)

/-! ### Derived views of the concrete state -/

/-- The chain stored in bucket `i` (out-of-range reads give the empty
chain, matching `calloc` zero-initialisation). -/
def bucketOf (m : Map) (i : Nat) : List (Int × Int) := m.table.getD i []

/-- The keys of a chain, head first. -/
def keys (b : List (Int × Int)) : List Int := b.map Prod.fst

/-- Total number of entries stored across all bucket chains. -/
def totalCount (m : Map) : Nat := (m.table.map List.length).sum

/-- How many entries of one chain carry the given key. -/
def countKeyChain (k : Int) : List (Int × Int) → Nat
  | [] => 0
  | (k0, _) :: rest => (if k0 = k then 1 else 0) + countKeyChain k rest

/-- How many entries across all buckets carry the given key. -/
def countKey (m : Map) (k : Int) : Nat :=
  (m.table.map (countKeyChain k)).sum

/-- The value the map currently observes for a key: the first-match scan
of the key's bucket. -/
def mlookup (m : Map) (k : Int) : Int :=
  chainGet k (bucketOf m (idx k m.capacity))

/-- Overwrite, in place, the value of the first entry carrying the key
(the effect of `put` on a chain containing the key). -/
def setFirst (key value : Int) : List (Int × Int) → List (Int × Int)
  | [] => []
  | (k, v) :: rest =>
    if k = key then (k, value) :: rest else (k, v) :: setFirst key value rest

/-- Unlink the first entry carrying the key (the effect of `del` on a
chain containing the key). -/
def removeFirst (key : Int) : List (Int × Int) → List (Int × Int)
  | [] => []
  | (k, v) :: rest =>
    if k = key then rest else (k, v) :: removeFirst key rest

/-- The sequential well-formedness invariant of reachable map states:
the table has exactly `capacity` buckets, capacity is positive, every
entry sits in the bucket its key hashes to, no chain carries a key twice,
and `size` counts the stored entries exactly. -/
def MapInv (m : Map) : Prop :=
  m.table.length = m.capacity ∧
  0 < m.capacity ∧
  (∀ i, ∀ x ∈ keys (bucketOf m i), idx x m.capacity = i) ∧
  (∀ i, (keys (bucketOf m i)).Nodup) ∧
  m.size = (totalCount m : Int)

/-- Simulation relation with the reference model: both observe the same
value at every key. -/
def Sim (m : Map) (am : List (Int × Int)) : Prop :=
  ∀ k, mlookup m k = aget am k

/-! ### Heap-level model of `rehash`

`rehash` (ts_hashmap.c lines 253-293) manipulates entries by pointer: it
relinks every existing entry node into a freshly allocated table of twice
the capacity, and then (lines 282-287) calls `free` on `map->table[i]` —
the head node of every old chain — even though those very nodes were just
relinked into the new table.  To express this the embedding must track
entry identity, so here entries live at heap addresses.  The spin-wait on
`numThreads` (line 256) is a concurrency mechanism with no sequential
effect and is not modelled; nor are the mutex arrays. -/

/-- A heap-allocated `ts_entry_t`: key, value, and the address of the
next entry in the chain (`none` models the null pointer). -/
structure HEntry where
  key : Int
  value : Int
  next : Option Nat
deriving DecidableEq

/-- A pointer-level map state: `heap` maps addresses to live entries
(`none` = freed or unallocated), `table` holds each bucket's head
address. -/
structure HMap where
  heap : List (Option HEntry)
  table : List (Option Nat)
  capacity : Nat
deriving DecidableEq

/-- The inner `while (curr)` loop of `rehash` (lines 269-279): walk one
old chain by address; for each node, set its `next` to the current head
of its new bucket and install it as that bucket's new head.  `fuel`
bounds the walk (the chains of a well-formed heap are acyclic and
shorter than the heap, so fuel `heap.length` never runs out). -/
def relinkChain : Nat → List (Option HEntry) → List (Option Nat) → Option Nat → Nat →
    List (Option HEntry) × List (Option Nat)
  | 0, heap, newTable, _, _ => (heap, newTable)
  | _ + 1, heap, newTable, none, _ => (heap, newTable)
  | fuel + 1, heap, newTable, some a, newCap =>
    match heap.getD a none with
    | none => (heap, newTable)
    | some e =>
      relinkChain fuel
        (heap.set a (some { e with next := newTable.getD (idx e.key newCap) none }))
        (newTable.set (idx e.key newCap) (some a)) e.next newCap

/-- The outer relink loop of `rehash` (lines 267-280): process every old
bucket in order. -/
def relinkAll : List (Option Nat) → List (Option HEntry) → List (Option Nat) → Nat →
    List (Option HEntry) × List (Option Nat)
  | [], heap, newTable, _ => (heap, newTable)
  | head :: rest, heap, newTable, newCap =>
    let p := relinkChain heap.length heap newTable head newCap
    relinkAll rest p.1 p.2 newCap

/-- The cleanup loop of `rehash` (lines 282-287): `free(currEntry)` where
`currEntry = map->table[i]`, i.e. free the old head node of every old
bucket (freeing the null pointer is a no-op). -/
def freeOldHeads : List (Option Nat) → List (Option HEntry) → List (Option HEntry)
  | [], heap => heap
  | none :: rest, heap => freeOldHeads rest heap
  | some a :: rest, heap => freeOldHeads rest (heap.set a none)

/-- `rehash` (lines 253-293): double the capacity, relink every entry
into the new table, free the old chain heads, install the new table. -/
def hrehash (m : HMap) : HMap :=
  let newCap := m.capacity * 2
  let p := relinkAll m.table m.heap (List.replicate newCap none) newCap
  { heap := freeOldHeads m.table p.1
    table := p.2
    capacity := newCap }

/-- A one-entry map with capacity 1: the pair `(7, 42)` lives at heap
address 0 and bucket 0 points at it. -/
def c3pre : HMap :=
  { heap := [some ⟨7, 42, none⟩], table := [some 0], capacity := 1 }

/-- A small concretely-computed reachable state used as a test vector:
construct(4); put(1,10); put(5,20).  Keys 1 and 5 collide under mod 4. -/
def wmap : Map := (runC (initmap 4) [Op.oput 1 10, Op.oput 5 20]).2

/-! ### List-level helper lemmas -/

theorem getD_cons_zero {α : Type} (hd : α) (tl : List α) (d : α) :
    (hd :: tl).getD 0 d = hd := rfl

theorem getD_cons_succ {α : Type} (hd : α) (tl : List α) (j : Nat) (d : α) :
    (hd :: tl).getD (j + 1) d = tl.getD j d := rfl

theorem getD_set_self {α : Type} (l : List α) (i : Nat) (x d : α) (h : i < l.length) :
    (l.set i x).getD i d = x := by
  induction l generalizing i with
  | nil => simp at h
  | cons hd tl ih =>
    cases i with
    | zero => rfl
    | succ j =>
      rw [List.set_cons_succ, getD_cons_succ]
      exact ih j (by simpa using h)

theorem getD_set_ne {α : Type} (l : List α) {i j : Nat} (x d : α) (h : i ≠ j) :
    (l.set i x).getD j d = l.getD j d := by
  induction l generalizing i j with
  | nil => rfl
  | cons hd tl ih =>
    cases i with
    | zero =>
      cases j with
      | zero => exact absurd rfl h
      | succ j2 => rfl
    | succ i2 =>
      cases j with
      | zero => rfl
      | succ j2 =>
        rw [List.set_cons_succ, getD_cons_succ, getD_cons_succ]
        exact ih (fun hc => h (by simp [hc]))

theorem getD_replicate {α : Type} (n i : Nat) (d : α) :
    (List.replicate n d).getD i d = d := by
  induction n generalizing i with
  | zero => rfl
  | succ n ih =>
    cases i with
    | zero => rfl
    | succ j => exact ih j

theorem getD_len_le {α : Type} (l : List α) (i : Nat) (d : α) (h : l.length ≤ i) :
    l.getD i d = d := by
  induction l generalizing i with
  | nil => rfl
  | cons hd tl ih =>
    cases i with
    | zero => simp at h
    | succ j =>
      rw [getD_cons_succ]
      exact ih j (by simpa using h)

theorem sum_map_set {α : Type} (f : α → Nat) (l : List α) (i : Nat) (x d : α)
    (h : i < l.length) :
    ((l.set i x).map f).sum + f (l.getD i d) = (l.map f).sum + f x := by
  induction l generalizing i with
  | nil => simp at h
  | cons hd tl ih =>
    cases i with
    | zero =>
      rw [List.set_cons_zero, getD_cons_zero]
      simp only [List.map, List.sum_cons]
      omega
    | succ j =>
      rw [List.set_cons_succ, getD_cons_succ]
      have := ih j (by simpa using h)
      simp only [List.map, List.sum_cons]
      omega

/-! ### Chain-level lemmas -/

theorem keys_cons (k0 v0 : Int) (tl : List (Int × Int)) :
    keys ((k0, v0) :: tl) = k0 :: keys tl := rfl

theorem chainGet_eq_aget (k : Int) (b : List (Int × Int)) :
    chainGet k b = aget b k := by
  induction b with
  | nil => rfl
  | cons hd tl ih =>
    obtain ⟨k0, v0⟩ := hd
    by_cases h : k0 = k <;> simp [chainGet, aget, h, ih]

theorem aget_not_mem {k : Int} {b : List (Int × Int)} (h : k ∉ keys b) :
    aget b k = INT_MAX := by
  induction b with
  | nil => rfl
  | cons hd tl ih =>
    obtain ⟨k0, v0⟩ := hd
    rw [keys_cons, List.mem_cons] at h
    push_neg at h
    have h1 : ¬ k0 = k := fun hc => h.1 hc.symm
    simp [aget, h1, ih h.2]

theorem aget_cons_self (k v : Int) (am : List (Int × Int)) :
    aget ((k, v) :: am) k = v := by simp [aget]

theorem aget_cons_ne {k k2 : Int} (v : Int) (am : List (Int × Int)) (h : k2 ≠ k) :
    aget ((k, v) :: am) k2 = aget am k2 := by
  have h1 : ¬ k = k2 := fun hc => h hc.symm
  simp [aget, h1]

theorem aget_aremove_self (k : Int) (am : List (Int × Int)) :
    aget (aremove k am) k = INT_MAX := by
  induction am with
  | nil => rfl
  | cons hd tl ih =>
    obtain ⟨k0, v0⟩ := hd
    by_cases h : k0 = k <;> simp [aremove, aget, h, ih]

theorem aget_aremove_ne {k k2 : Int} (am : List (Int × Int)) (h : k2 ≠ k) :
    aget (aremove k am) k2 = aget am k2 := by
  have h1 : ¬ k = k2 := fun hc => h hc.symm
  induction am with
  | nil => rfl
  | cons hd tl ih =>
    obtain ⟨k0, v0⟩ := hd
    by_cases h0 : k0 = k
    · subst h0
      simp [aremove, aget, h1, ih]
    · by_cases h2 : k0 = k2 <;> simp [aremove, aget, h0, h2, h, ih]

theorem chainPut_eq_none {k : Int} (v : Int) {b : List (Int × Int)} :
    chainPut k v b = none ↔ k ∉ keys b := by
  induction b with
  | nil => simp [chainPut, keys]
  | cons hd tl ih =>
    obtain ⟨k0, v0⟩ := hd
    rw [keys_cons, List.mem_cons]
    by_cases h : k0 = k
    · simp [chainPut, h]
    · simp only [chainPut, h, if_false]
      constructor
      · intro hm
        rcases hmatch : chainPut k v tl with _ | p
        · intro hc
          rcases hc with hc | hc
          · exact h hc.symm
          · exact (ih.mp hmatch) hc
        · rw [hmatch] at hm; simp at hm
      · intro hc
        push_neg at hc
        rw [ih.mpr hc.2]

theorem chainPut_mem {k : Int} (v : Int) {b : List (Int × Int)} (h : k ∈ keys b) :
    chainPut k v b = some (aget b k, setFirst k v b) := by
  induction b with
  | nil => simp [keys] at h
  | cons hd tl ih =>
    obtain ⟨k0, v0⟩ := hd
    rw [keys_cons, List.mem_cons] at h
    by_cases h0 : k0 = k
    · simp [chainPut, setFirst, aget, h0]
    · have hm : k ∈ keys tl := by
        rcases h with hc | hc
        · exact absurd hc.symm h0
        · exact hc
      simp [chainPut, setFirst, aget, h0, ih hm]

theorem keys_setFirst (k v : Int) (b : List (Int × Int)) :
    keys (setFirst k v b) = keys b := by
  induction b with
  | nil => rfl
  | cons hd tl ih =>
    obtain ⟨k0, v0⟩ := hd
    by_cases h : k0 = k
    · simp [setFirst, h, keys_cons]
    · rw [keys_cons, show setFirst k v ((k0, v0) :: tl) = (k0, v0) :: setFirst k v tl by
        simp [setFirst, h], keys_cons, ih]

theorem length_setFirst (k v : Int) (b : List (Int × Int)) :
    (setFirst k v b).length = b.length := by
  induction b with
  | nil => rfl
  | cons hd tl ih =>
    obtain ⟨k0, v0⟩ := hd
    by_cases h : k0 = k <;> simp [setFirst, h, ih]

theorem aget_setFirst_self {k : Int} (v : Int) {b : List (Int × Int)} (h : k ∈ keys b) :
    aget (setFirst k v b) k = v := by
  induction b with
  | nil => simp [keys] at h
  | cons hd tl ih =>
    obtain ⟨k0, v0⟩ := hd
    rw [keys_cons, List.mem_cons] at h
    by_cases h0 : k0 = k
    · simp [setFirst, aget, h0]
    · have hm : k ∈ keys tl := by
        rcases h with hc | hc
        · exact absurd hc.symm h0
        · exact hc
      simp [setFirst, aget, h0, ih hm]

theorem aget_setFirst_ne {k k2 : Int} (v : Int) (b : List (Int × Int)) (h : k2 ≠ k) :
    aget (setFirst k v b) k2 = aget b k2 := by
  have h1 : ¬ k = k2 := fun hc => h hc.symm
  induction b with
  | nil => rfl
  | cons hd tl ih =>
    obtain ⟨k0, v0⟩ := hd
    by_cases h0 : k0 = k
    · subst h0
      simp [setFirst, aget, h1]
    · by_cases h2 : k0 = k2 <;> simp [setFirst, aget, h0, h2, h, ih]

theorem chainDel_eq_none {k : Int} {b : List (Int × Int)} :
    chainDel k b = none ↔ k ∉ keys b := by
  induction b with
  | nil => simp [chainDel, keys]
  | cons hd tl ih =>
    obtain ⟨k0, v0⟩ := hd
    rw [keys_cons, List.mem_cons]
    by_cases h : k0 = k
    · simp [chainDel, h]
    · simp only [chainDel, h, if_false]
      constructor
      · intro hm
        rcases hmatch : chainDel k tl with _ | p
        · intro hc
          rcases hc with hc | hc
          · exact h hc.symm
          · exact (ih.mp hmatch) hc
        · rw [hmatch] at hm; simp at hm
      · intro hc
        push_neg at hc
        rw [ih.mpr hc.2]

theorem chainDel_mem {k : Int} {b : List (Int × Int)} (h : k ∈ keys b) :
    chainDel k b = some (aget b k, removeFirst k b) := by
  induction b with
  | nil => simp [keys] at h
  | cons hd tl ih =>
    obtain ⟨k0, v0⟩ := hd
    rw [keys_cons, List.mem_cons] at h
    by_cases h0 : k0 = k
    · simp [chainDel, removeFirst, aget, h0]
    · have hm : k ∈ keys tl := by
        rcases h with hc | hc
        · exact absurd hc.symm h0
        · exact hc
      simp [chainDel, removeFirst, aget, h0, ih hm]

theorem removeFirst_sublist (k : Int) (b : List (Int × Int)) :
    (removeFirst k b).Sublist b := by
  induction b with
  | nil => simp [removeFirst]
  | cons hd tl ih =>
    obtain ⟨k0, v0⟩ := hd
    by_cases h : k0 = k
    · simp [removeFirst, h]
    · simpa [removeFirst, h] using ih.cons₂ (k0, v0)

theorem keys_removeFirst_sublist (k : Int) (b : List (Int × Int)) :
    (keys (removeFirst k b)).Sublist (keys b) :=
  (removeFirst_sublist k b).map Prod.fst

theorem length_removeFirst {k : Int} {b : List (Int × Int)} (h : k ∈ keys b) :
    (removeFirst k b).length + 1 = b.length := by
  induction b with
  | nil => simp [keys] at h
  | cons hd tl ih =>
    obtain ⟨k0, v0⟩ := hd
    rw [keys_cons, List.mem_cons] at h
    by_cases h0 : k0 = k
    · simp [removeFirst, h0]
    · have hm : k ∈ keys tl := by
        rcases h with hc | hc
        · exact absurd hc.symm h0
        · exact hc
      simp only [removeFirst, h0, if_false, List.length_cons]
      rw [← ih hm]

theorem aget_removeFirst_ne {k k2 : Int} (b : List (Int × Int)) (h : k2 ≠ k) :
    aget (removeFirst k b) k2 = aget b k2 := by
  have h1 : ¬ k = k2 := fun hc => h hc.symm
  induction b with
  | nil => rfl
  | cons hd tl ih =>
    obtain ⟨k0, v0⟩ := hd
    by_cases h0 : k0 = k
    · subst h0
      simp [removeFirst, aget, h1]
    · by_cases h2 : k0 = k2 <;> simp [removeFirst, aget, h0, h2, h, ih]

theorem aget_removeFirst_self {k : Int} {b : List (Int × Int)}
    (hnd : (keys b).Nodup) : aget (removeFirst k b) k = INT_MAX := by
  induction b with
  | nil => rfl
  | cons hd tl ih =>
    obtain ⟨k0, v0⟩ := hd
    rw [keys_cons, List.nodup_cons] at hnd
    by_cases h0 : k0 = k
    · subst h0
      simp only [removeFirst, if_pos rfl]
      exact aget_not_mem hnd.1
    · simp [removeFirst, aget, h0, ih hnd.2]

/-! ### Characterisations of the three operations -/

theorem get_char (m : Map) (key : Int) :
    (get m key).1 = mlookup m key ∧
    (get m key).2.table = m.table ∧
    (get m key).2.capacity = m.capacity ∧
    (get m key).2.size = m.size ∧
    (get m key).2.numOps = m.numOps + 1 ∧
    (get m key).2.numThreads = m.numThreads := by
  refine ⟨rfl, rfl, rfl, rfl, rfl, ?_⟩
  show m.numThreads + 1 - 1 = m.numThreads
  omega

theorem put_found {m : Map} {key : Int} (value : Int)
    (h : key ∈ keys (bucketOf m (idx key m.capacity))) :
    (put m key value).1 = aget (bucketOf m (idx key m.capacity)) key ∧
    (put m key value).2.table
      = m.table.set (idx key m.capacity)
          (setFirst key value (bucketOf m (idx key m.capacity))) ∧
    (put m key value).2.capacity = m.capacity ∧
    (put m key value).2.size = m.size ∧
    (put m key value).2.numOps = m.numOps + 1 ∧
    (put m key value).2.numThreads = m.numThreads := by
  have hcp := chainPut_mem value h
  rw [bucketOf] at hcp
  simp only [put, acquireBucketAccess]
  simp only [bucketOf]
  rw [hcp]
  refine ⟨rfl, rfl, rfl, rfl, rfl, ?_⟩
  simp [releaseBucketAccess]

theorem put_new {m : Map} {key : Int} (value : Int)
    (h : key ∉ keys (bucketOf m (idx key m.capacity))) :
    (put m key value).1 = INT_MAX ∧
    (put m key value).2.table
      = m.table.set (idx key m.capacity)
          ((key, value) :: bucketOf m (idx key m.capacity)) ∧
    (put m key value).2.capacity = m.capacity ∧
    (put m key value).2.size = m.size + 1 ∧
    (put m key value).2.numOps = m.numOps + 1 ∧
    (put m key value).2.numThreads = m.numThreads := by
  have hcp := (chainPut_eq_none value).mpr h
  rw [bucketOf] at hcp
  simp only [put, acquireBucketAccess]
  simp only [bucketOf]
  rw [hcp]
  refine ⟨rfl, rfl, rfl, rfl, rfl, ?_⟩
  simp [releaseBucketAccess, atomic_mutate_size]

theorem del_found {m : Map} {key : Int}
    (h : key ∈ keys (bucketOf m (idx key m.capacity))) :
    (del m key).1 = aget (bucketOf m (idx key m.capacity)) key ∧
    (del m key).2.table
      = m.table.set (idx key m.capacity)
          (removeFirst key (bucketOf m (idx key m.capacity))) ∧
    (del m key).2.capacity = m.capacity ∧
    (del m key).2.size = m.size - 1 ∧
    (del m key).2.numOps = m.numOps + 1 ∧
    (del m key).2.numThreads = m.numThreads := by
  have hcd := chainDel_mem h
  rw [bucketOf] at hcd
  simp only [del, acquireBucketAccess]
  simp only [bucketOf]
  rw [hcd]
  refine ⟨rfl, rfl, rfl, rfl, rfl, ?_⟩
  simp [releaseBucketAccess, atomic_mutate_size]

theorem del_not_found {m : Map} {key : Int}
    (h : key ∉ keys (bucketOf m (idx key m.capacity))) :
    (del m key).1 = INT_MAX ∧
    (del m key).2.table = m.table ∧
    (del m key).2.capacity = m.capacity ∧
    (del m key).2.size = m.size ∧
    (del m key).2.numOps = m.numOps + 1 ∧
    (del m key).2.numThreads = m.numThreads := by
  have hcd := chainDel_eq_none.mpr h
  rw [bucketOf] at hcd
  simp only [del, acquireBucketAccess]
  rw [hcd]
  refine ⟨rfl, rfl, rfl, rfl, rfl, ?_⟩
  simp [releaseBucketAccess]

/-! ### Invariant and simulation preservation -/

theorem mlookup_eq (m : Map) (k : Int) :
    mlookup m k = aget (bucketOf m (idx k m.capacity)) k :=
  chainGet_eq_aget k _

theorem idx_lt {capacity : Nat} (key : Int) (h : 0 < capacity) :
    idx key capacity < capacity :=
  Nat.mod_lt _ h

theorem mapInv_initmap {cap : Nat} (h : 0 < cap) : MapInv (initmap cap) := by
  refine ⟨by simp [initmap], h, ?_, ?_, ?_⟩
  · intro i x hx
    rw [show bucketOf (initmap cap) i = (List.replicate cap []).getD i [] from rfl] at hx
    rcases Nat.lt_or_ge i cap with hi | hi
    · rw [getD_replicate] at hx; simp [keys] at hx
    · rw [getD_len_le _ _ _ (by simpa using hi)] at hx; simp [keys] at hx
  · intro i
    rw [show bucketOf (initmap cap) i = (List.replicate cap []).getD i [] from rfl]
    rcases Nat.lt_or_ge i cap with hi | hi
    · rw [getD_replicate]; simp [keys]
    · rw [getD_len_le _ _ _ (by simpa using hi)]; simp [keys]
  · show (0 : Int) = ((List.replicate cap (α := List (Int × Int)) []).map List.length).sum
    induction cap with
    | zero => rfl
    | succ n ih => rw [List.replicate_succ]; simp

theorem sim_initmap (cap : Nat) : Sim (initmap cap) [] := by
  intro k
  rw [mlookup_eq]
  rw [show bucketOf (initmap cap) (idx k (initmap cap).capacity)
      = (List.replicate cap []).getD (idx k cap) [] from rfl]
  rcases Nat.lt_or_ge (idx k cap) cap with hi | hi
  · rw [getD_replicate]
  · rw [getD_len_le _ _ _ (by simpa using hi)]

theorem get_preserves (m : Map) (am : List (Int × Int)) (k : Int)
    (hI : MapInv m) (hS : Sim m am) :
    (get m k).1 = aget am k ∧ MapInv (get m k).2 ∧ Sim (get m k).2 am := by
  obtain ⟨h1, h2, h3, h4, h5, h6⟩ := get_char m k
  refine ⟨by rw [h1, hS k], ?_, ?_⟩
  · obtain ⟨hlen, hcap, hplace, hnd, hsize⟩ := hI
    refine ⟨?_, ?_, ?_, ?_, ?_⟩
    · rw [h2, h3]; exact hlen
    · rw [h3]; exact hcap
    · intro i
      rw [show bucketOf (get m k).2 i = (get m k).2.table.getD i [] from rfl, h2, h3]
      exact hplace i
    · intro i
      rw [show bucketOf (get m k).2 i = (get m k).2.table.getD i [] from rfl, h2]
      exact hnd i
    · rw [h4, show totalCount (get m k).2 = ((get m k).2.table.map List.length).sum from rfl, h2]
      exact hsize
  · intro k2
    rw [show mlookup (get m k).2 k2
        = chainGet k2 ((get m k).2.table.getD (idx k2 (get m k).2.capacity) []) from rfl,
      h2, h3]
    exact hS k2

theorem put_preserves (m : Map) (am : List (Int × Int)) (k v : Int)
    (hI : MapInv m) (hS : Sim m am) :
    (put m k v).1 = (aput am k v).1 ∧
    MapInv (put m k v).2 ∧ Sim (put m k v).2 (aput am k v).2 := by
  obtain ⟨hlen, hcap, hplace, hnd, hsize⟩ := hI
  have hi : idx k m.capacity < m.capacity := idx_lt k hcap
  have hitab : idx k m.capacity < m.table.length := by rw [hlen]; exact hi
  have hmget : mlookup m k = aget (bucketOf m (idx k m.capacity)) k := mlookup_eq m k
  by_cases hmem : k ∈ keys (bucketOf m (idx k m.capacity))
  · obtain ⟨h1, h2, h3, h4, h5, h6⟩ := put_found v hmem
    refine ⟨?_, ⟨?_, ?_, ?_, ?_, ?_⟩, ?_⟩
    · rw [h1, show (aput am k v).1 = aget am k from rfl, ← hS k, hmget]
    · rw [h2, h3, List.length_set]; exact hlen
    · rw [h3]; exact hcap
    · intro i x hx
      rw [show bucketOf (put m k v).2 i = (put m k v).2.table.getD i [] from rfl, h2] at hx
      rw [h3]
      by_cases hji : idx k m.capacity = i
      · subst hji
        rw [getD_set_self _ _ _ _ hitab, keys_setFirst] at hx
        exact hplace _ x hx
      · rw [getD_set_ne _ _ _ hji] at hx
        exact hplace i x hx
    · intro i
      rw [show bucketOf (put m k v).2 i = (put m k v).2.table.getD i [] from rfl, h2]
      by_cases hji : idx k m.capacity = i
      · subst hji
        rw [getD_set_self _ _ _ _ hitab, keys_setFirst]
        exact hnd _
      · rw [getD_set_ne _ _ _ hji]
        exact hnd i
    · rw [h4, show totalCount (put m k v).2 = ((put m k v).2.table.map List.length).sum from rfl,
        h2]
      have hsum := sum_map_set List.length m.table (idx k m.capacity)
        (setFirst k v (bucketOf m (idx k m.capacity))) [] hitab
      rw [length_setFirst] at hsum
      have : ((m.table.set (idx k m.capacity)
          (setFirst k v (bucketOf m (idx k m.capacity)))).map List.length).sum
          = (m.table.map List.length).sum := by
        have : (m.table.getD (idx k m.capacity) []).length
            = (bucketOf m (idx k m.capacity)).length := rfl
        omega
      rw [this]
      exact hsize
    · intro k2
      rw [show mlookup (put m k v).2 k2
          = chainGet k2 ((put m k v).2.table.getD (idx k2 (put m k v).2.capacity) []) from rfl,
        h2, h3, chainGet_eq_aget,
        show (aput am k v).2 = (k, v) :: am from rfl]
      by_cases hb : idx k2 m.capacity = idx k m.capacity
      · rw [hb, getD_set_self _ _ _ _ hitab]
        by_cases hk : k2 = k
        · subst hk
          rw [aget_setFirst_self v hmem, aget_cons_self]
        · rw [aget_setFirst_ne v _ hk, aget_cons_ne v am hk, ← hS k2, mlookup_eq, hb]
      · have hk : k2 ≠ k := fun he => hb (by rw [he])
        rw [getD_set_ne _ _ _ (fun he => hb he.symm), aget_cons_ne v am hk, ← hS k2, mlookup_eq]
        rfl
  · obtain ⟨h1, h2, h3, h4, h5, h6⟩ := put_new v hmem
    refine ⟨?_, ⟨?_, ?_, ?_, ?_, ?_⟩, ?_⟩
    · rw [h1, show (aput am k v).1 = aget am k from rfl, ← hS k, hmget,
        aget_not_mem hmem]
    · rw [h2, h3, List.length_set]; exact hlen
    · rw [h3]; exact hcap
    · intro i x hx
      rw [show bucketOf (put m k v).2 i = (put m k v).2.table.getD i [] from rfl, h2] at hx
      rw [h3]
      by_cases hji : idx k m.capacity = i
      · subst hji
        rw [getD_set_self _ _ _ _ hitab, keys_cons, List.mem_cons] at hx
        rcases hx with hx | hx
        · rw [hx]
        · exact hplace _ x hx
      · rw [getD_set_ne _ _ _ hji] at hx
        exact hplace i x hx
    · intro i
      rw [show bucketOf (put m k v).2 i = (put m k v).2.table.getD i [] from rfl, h2]
      by_cases hji : idx k m.capacity = i
      · subst hji
        rw [getD_set_self _ _ _ _ hitab, keys_cons, List.nodup_cons]
        exact ⟨hmem, hnd _⟩
      · rw [getD_set_ne _ _ _ hji]
        exact hnd i
    · rw [h4, show totalCount (put m k v).2 = ((put m k v).2.table.map List.length).sum from rfl,
        h2]
      have hsum := sum_map_set List.length m.table (idx k m.capacity)
        ((k, v) :: bucketOf m (idx k m.capacity)) [] hitab
      have heq : (m.table.getD (idx k m.capacity) []).length
          = (bucketOf m (idx k m.capacity)).length := rfl
      rw [show totalCount m = (m.table.map List.length).sum from rfl] at hsize
      have hlist : ((m.table.set (idx k m.capacity)
          ((k, v) :: bucketOf m (idx k m.capacity))).map List.length).sum
          = (m.table.map List.length).sum + 1 := by
        rw [List.length_cons] at hsum
        omega
      rw [hlist, hsize]
      push_cast
      ring
    · intro k2
      rw [show mlookup (put m k v).2 k2
          = chainGet k2 ((put m k v).2.table.getD (idx k2 (put m k v).2.capacity) []) from rfl,
        h2, h3, chainGet_eq_aget,
        show (aput am k v).2 = (k, v) :: am from rfl]
      by_cases hb : idx k2 m.capacity = idx k m.capacity
      · rw [hb, getD_set_self _ _ _ _ hitab]
        by_cases hk : k2 = k
        · subst hk
          rw [aget_cons_self, aget_cons_self]
        · rw [aget_cons_ne v _ hk, aget_cons_ne v am hk, ← hS k2, mlookup_eq, hb]
      · have hk : k2 ≠ k := fun he => hb (by rw [he])
        rw [getD_set_ne _ _ _ (fun he => hb he.symm), aget_cons_ne v am hk, ← hS k2, mlookup_eq]
        rfl

theorem del_preserves (m : Map) (am : List (Int × Int)) (k : Int)
    (hI : MapInv m) (hS : Sim m am) :
    (del m k).1 = (adel am k).1 ∧
    MapInv (del m k).2 ∧ Sim (del m k).2 (adel am k).2 := by
  obtain ⟨hlen, hcap, hplace, hnd, hsize⟩ := hI
  have hi : idx k m.capacity < m.capacity := idx_lt k hcap
  have hitab : idx k m.capacity < m.table.length := by rw [hlen]; exact hi
  have hmget : mlookup m k = aget (bucketOf m (idx k m.capacity)) k := mlookup_eq m k
  by_cases hmem : k ∈ keys (bucketOf m (idx k m.capacity))
  · obtain ⟨h1, h2, h3, h4, h5, h6⟩ := del_found hmem
    refine ⟨?_, ⟨?_, ?_, ?_, ?_, ?_⟩, ?_⟩
    · rw [h1, show (adel am k).1 = aget am k from rfl, ← hS k, hmget]
    · rw [h2, h3, List.length_set]; exact hlen
    · rw [h3]; exact hcap
    · intro i x hx
      rw [show bucketOf (del m k).2 i = (del m k).2.table.getD i [] from rfl, h2] at hx
      rw [h3]
      by_cases hji : idx k m.capacity = i
      · subst hji
        rw [getD_set_self _ _ _ _ hitab] at hx
        exact hplace _ x ((keys_removeFirst_sublist k _).subset hx)
      · rw [getD_set_ne _ _ _ hji] at hx
        exact hplace i x hx
    · intro i
      rw [show bucketOf (del m k).2 i = (del m k).2.table.getD i [] from rfl, h2]
      by_cases hji : idx k m.capacity = i
      · subst hji
        rw [getD_set_self _ _ _ _ hitab]
        exact (hnd _).sublist (keys_removeFirst_sublist k _)
      · rw [getD_set_ne _ _ _ hji]
        exact hnd i
    · rw [h4, show totalCount (del m k).2 = ((del m k).2.table.map List.length).sum from rfl,
        h2]
      have hsum := sum_map_set List.length m.table (idx k m.capacity)
        (removeFirst k (bucketOf m (idx k m.capacity))) [] hitab
      have hrem := length_removeFirst hmem
      have heq : (m.table.getD (idx k m.capacity) []).length
          = (bucketOf m (idx k m.capacity)).length := rfl
      rw [show totalCount m = (m.table.map List.length).sum from rfl] at hsize
      omega
    · intro k2
      rw [show mlookup (del m k).2 k2
          = chainGet k2 ((del m k).2.table.getD (idx k2 (del m k).2.capacity) []) from rfl,
        h2, h3, chainGet_eq_aget,
        show (adel am k).2 = aremove k am from rfl]
      by_cases hb : idx k2 m.capacity = idx k m.capacity
      · rw [hb, getD_set_self _ _ _ _ hitab]
        by_cases hk : k2 = k
        · subst hk
          rw [aget_removeFirst_self (hnd _), aget_aremove_self]
        · rw [aget_removeFirst_ne _ hk, aget_aremove_ne am hk, ← hS k2, mlookup_eq, hb]
      · have hk : k2 ≠ k := fun he => hb (by rw [he])
        rw [getD_set_ne _ _ _ (fun he => hb he.symm), aget_aremove_ne am hk, ← hS k2, mlookup_eq]
        rfl
  · obtain ⟨h1, h2, h3, h4, h5, h6⟩ := del_not_found hmem
    have hget : aget am k = INT_MAX := by
      rw [← hS k, hmget]; exact aget_not_mem hmem
    refine ⟨?_, ⟨?_, ?_, ?_, ?_, ?_⟩, ?_⟩
    · rw [h1, show (adel am k).1 = aget am k from rfl, hget]
    · rw [h2, h3]; exact hlen
    · rw [h3]; exact hcap
    · intro i x hx
      rw [show bucketOf (del m k).2 i = (del m k).2.table.getD i [] from rfl, h2] at hx
      rw [h3]
      exact hplace i x hx
    · intro i
      rw [show bucketOf (del m k).2 i = (del m k).2.table.getD i [] from rfl, h2]
      exact hnd i
    · rw [h4, show totalCount (del m k).2 = ((del m k).2.table.map List.length).sum from rfl, h2]
      exact hsize
    · intro k2
      rw [show mlookup (del m k).2 k2
          = chainGet k2 ((del m k).2.table.getD (idx k2 (del m k).2.capacity) []) from rfl,
        h2, h3, chainGet_eq_aget,
        show (adel am k).2 = aremove k am from rfl]
      by_cases hk : k2 = k
      · subst hk
        rw [aget_aremove_self, ← aget_not_mem hmem]
        rfl
      · rw [aget_aremove_ne am hk, ← hS k2, mlookup_eq]
        rfl

theorem step_preserves (m : Map) (am : List (Int × Int)) (op : Op)
    (hI : MapInv m) (hS : Sim m am) :
    (step m op).1 = (astep am op).1 ∧
    MapInv (step m op).2 ∧ Sim (step m op).2 (astep am op).2 := by
  cases op with
  | oput k v => exact put_preserves m am k v hI hS
  | oget k => exact get_preserves m am k hI hS
  | odel k => exact del_preserves m am k hI hS

theorem run_preserves (ops : List Op) (m : Map) (am : List (Int × Int))
    (hI : MapInv m) (hS : Sim m am) :
    (runC m ops).1 = (runA am ops).1 ∧
    MapInv (runC m ops).2 ∧ Sim (runC m ops).2 (runA am ops).2 := by
  induction ops generalizing m am with
  | nil => exact ⟨rfl, hI, hS⟩
  | cons op ops ih =>
    obtain ⟨ho, hI2, hS2⟩ := step_preserves m am op hI hS
    obtain ⟨ho2, hI3, hS3⟩ := ih (step m op).2 (astep am op).2 hI2 hS2
    refine ⟨?_, hI3, hS3⟩
    show (step m op).1 :: (runC (step m op).2 ops).1
        = (astep am op).1 :: (runA (astep am op).2 ops).1
    rw [ho, ho2]

theorem reachable_mapInv {m : Map} (h : Reachable m) : MapInv m := by
  obtain ⟨cap, ops, hcap, hm⟩ := h
  rw [hm]
  exact (run_preserves ops (initmap cap) [] (mapInv_initmap hcap) (sim_initmap cap)).2.1

/-! ### Counting entries with one key -/

theorem countKeyChain_eq_zero {k : Int} {b : List (Int × Int)} (h : k ∉ keys b) :
    countKeyChain k b = 0 := by
  induction b with
  | nil => rfl
  | cons hd tl ih =>
    obtain ⟨k0, v0⟩ := hd
    rw [keys_cons, List.mem_cons] at h
    push_neg at h
    have h1 : ¬ k0 = k := fun hc => h.1 hc.symm
    simp [countKeyChain, h1, ih h.2]

theorem countKeyChain_le_one {k : Int} {b : List (Int × Int)}
    (hnd : (keys b).Nodup) : countKeyChain k b ≤ 1 := by
  induction b with
  | nil => simp [countKeyChain]
  | cons hd tl ih =>
    obtain ⟨k0, v0⟩ := hd
    rw [keys_cons, List.nodup_cons] at hnd
    by_cases h0 : k0 = k
    · subst h0
      rw [show countKeyChain k0 ((k0, v0) :: tl)
          = (if k0 = k0 then 1 else 0) + countKeyChain k0 tl from rfl, if_pos rfl,
        countKeyChain_eq_zero hnd.1]
    · rw [show countKeyChain k ((k0, v0) :: tl)
          = (if k0 = k then 1 else 0) + countKeyChain k tl from rfl, if_neg h0]
      simpa using ih hnd.2

theorem sum_map_eq_zero {α : Type} (f : α → Nat) (l : List α) (d : α)
    (h : ∀ j, j < l.length → f (l.getD j d) = 0) :
    (l.map f).sum = 0 := by
  induction l with
  | nil => rfl
  | cons hd tl ih =>
    have hhd : f hd = 0 := h 0 (by simp)
    have htl : (tl.map f).sum = 0 :=
      ih (fun j hj => h (j + 1) (by simpa using hj))
    simp [hhd, htl]

theorem sum_le_one_of_single {α : Type} (f : α → Nat) (l : List α) (i0 : Nat) (d : α)
    (h0 : ∀ j, j < l.length → j ≠ i0 → f (l.getD j d) = 0)
    (h1 : f (l.getD i0 d) ≤ 1) :
    (l.map f).sum ≤ 1 := by
  induction l generalizing i0 with
  | nil => simp
  | cons hd tl ih =>
    cases i0 with
    | zero =>
      have htl : (tl.map f).sum = 0 :=
        sum_map_eq_zero f tl d
          (fun j hj => h0 (j + 1) (by simpa using hj) (by simp))
      rw [getD_cons_zero] at h1
      simp only [List.map, List.sum_cons, htl]
      omega
    | succ i0' =>
      have hhd : f hd = 0 := h0 0 (by simp) (by simp)
      rw [getD_cons_succ] at h1
      have htl := ih i0'
        (fun j hj hne => by
          have := h0 (j + 1) (by simpa using hj) (by simpa using hne)
          rwa [getD_cons_succ] at this) h1
      simp only [List.map, List.sum_cons, hhd]
      omega

theorem countKey_le_one {m : Map} (hI : MapInv m) (k : Int) : countKey m k ≤ 1 := by
  obtain ⟨hlen, hcap, hplace, hnd, _⟩ := hI
  apply sum_le_one_of_single (countKeyChain k) m.table (idx k m.capacity) []
  · intro j _ hne
    apply countKeyChain_eq_zero
    intro hmem
    exact hne (hplace j k hmem).symm
  · exact countKeyChain_le_one (hnd (idx k m.capacity))

/-! ### Claim theorems -/

/-- C1: for every sequence of put/get/del operations executed
single-threaded on a map constructed with a positive capacity, the
observable results equal those of the spec's reference associative map
(ordered list of key-value pairs, last-write-wins); in particular the
concrete trace construct(4); put(1,10); put(5,20); get(1); get(5);
put(1,99); delete(5); get(5) returns sentinel, sentinel, 10, 20, 10, 20,
sentinel in that order and leaves size = 1. -/
theorem single_thread_refines_assoc_map (cap : Nat) (hcap : 0 < cap) (ops : List Op) :
    (runC (initmap cap) ops).1 = (runA [] ops).1 ∧
    (runC (initmap 4) [Op.oput 1 10, Op.oput 5 20, Op.oget 1, Op.oget 5, Op.oput 1 99,
        Op.odel 5, Op.oget 5]).1 = [INT_MAX, INT_MAX, 10, 20, 10, 20, INT_MAX] ∧
    (runC (initmap 4) [Op.oput 1 10, Op.oput 5 20, Op.oget 1, Op.oget 5, Op.oput 1 99,
        Op.odel 5, Op.oget 5]).2.size = 1 :=
  ⟨(run_preserves ops (initmap cap) [] (mapInv_initmap hcap) (sim_initmap cap)).1,
    by decide, by decide⟩

theorem single_thread_refines_assoc_map_witness :
    0 < 4 ∧
    ((runC (initmap 4) [Op.oput 1 10, Op.oget 1]).1
        = (runA [] [Op.oput 1 10, Op.oget 1]).1 ∧
     (runC (initmap 4) [Op.oput 1 10, Op.oput 5 20, Op.oget 1, Op.oget 5, Op.oput 1 99,
        Op.odel 5, Op.oget 5]).1 = [INT_MAX, INT_MAX, 10, 20, 10, 20, INT_MAX] ∧
     (runC (initmap 4) [Op.oput 1 10, Op.oput 5 20, Op.oget 1, Op.oget 5, Op.oput 1 99,
        Op.odel 5, Op.oget 5]).2.size = 1) :=
  ⟨by decide, single_thread_refines_assoc_map 4 (by decide) [Op.oput 1 10, Op.oget 1]⟩

/-- C2: construct(4) followed by puts of the three fresh keys 0, 1, 2
drives the load factor to size/capacity = 3/4, which reaches the 0.75
threshold (for these magnitudes the C double computation is exact, so the
comparison is equivalent to 4*size ≥ 3*capacity) — yet the capacity is
still 4 afterwards, not 8: no resize happens, because the `rehash(map)`
call on line 133 of ts_hashmap.c is commented out.  This contradicts the
claim that reaching the threshold triggers a capacity doubling. -/
theorem load_factor_reached_but_no_resize :
    4 * ((runC (initmap 4) [Op.oput 0 1, Op.oput 1 2, Op.oput 2 3]).2).size
      ≥ 3 * (((runC (initmap 4) [Op.oput 0 1, Op.oput 1 2, Op.oput 2 3]).2).capacity : Int) ∧
    ((runC (initmap 4) [Op.oput 0 1, Op.oput 1 2, Op.oput 2 3]).2).capacity = 4 := by
  decide

/-- C3: on a capacity-1 map whose single entry (7, 42) lives at heap
address 0, `rehash` doubles the capacity and relinks the entry into the
new table — but its cleanup loop (ts_hashmap.c lines 282-287) then frees
the very node it just relinked: afterwards the new table's bucket for
key 7 still references address 0 while the entry at address 0 has been
freed.  The pair (7, 42) is lost (a dangling reference remains), contradicting
the claim that no entry is lost. -/
theorem rehash_frees_live_entry :
    c3pre.heap.getD 0 none = some ⟨7, 42, none⟩ ∧
    (hrehash c3pre).capacity = 2 ∧
    (hrehash c3pre).table.getD (idx 7 (hrehash c3pre).capacity) none = some 0 ∧
    (hrehash c3pre).heap.getD 0 none = none := by
  decide

/-- C4: put(key, value): if the key is present in its bucket chain, the
first matching entry's value is overwritten in place (the rest of the
chain is untouched) and the previous value is returned; if the key is
absent, a new entry becomes the new head of that chain, size is
incremented by one, and the sentinel INT_MAX is returned.  Capacity is
unchanged either way. -/
theorem put_overwrites_or_prepends (m : Map) (key value : Int) :
    (key ∈ keys (bucketOf m (idx key m.capacity)) →
      (put m key value).1 = aget (bucketOf m (idx key m.capacity)) key ∧
      (put m key value).2.table = m.table.set (idx key m.capacity)
        (setFirst key value (bucketOf m (idx key m.capacity))) ∧
      (put m key value).2.size = m.size) ∧
    (key ∉ keys (bucketOf m (idx key m.capacity)) →
      (put m key value).1 = INT_MAX ∧
      (put m key value).2.table = m.table.set (idx key m.capacity)
        ((key, value) :: bucketOf m (idx key m.capacity)) ∧
      (put m key value).2.size = m.size + 1) ∧
    (put m key value).2.capacity = m.capacity := by
  refine ⟨fun hmem => ⟨(put_found value hmem).1, (put_found value hmem).2.1,
      (put_found value hmem).2.2.2.1⟩,
    fun hmem => ⟨(put_new value hmem).1, (put_new value hmem).2.1,
      (put_new value hmem).2.2.2.1⟩, ?_⟩
  by_cases hmem : key ∈ keys (bucketOf m (idx key m.capacity))
  · exact (put_found value hmem).2.2.1
  · exact (put_new value hmem).2.2.1

/-- C5: get(key) returns the value of the first entry with a matching key
in the chain at bucket index unsigned(key) mod capacity, and the sentinel
INT_MAX when no entry matches; it mutates neither the table, nor the
entries, nor size, nor capacity. -/
theorem get_first_match_no_mutation (m : Map) (key : Int) :
    (get m key).1 = aget (bucketOf m (idx key m.capacity)) key ∧
    (key ∉ keys (bucketOf m (idx key m.capacity)) → (get m key).1 = INT_MAX) ∧
    (get m key).2.table = m.table ∧
    (get m key).2.size = m.size ∧
    (get m key).2.capacity = m.capacity := by
  obtain ⟨h1, h2, h3, h4, _, _⟩ := get_char m key
  exact ⟨by rw [h1, mlookup_eq], fun hmem => by rw [h1, mlookup_eq, aget_not_mem hmem],
    h2, h4, h3⟩

/-- C6: provided the key's bucket chain holds no duplicate keys (true of
every reachable state), del(k) immediately followed by get(k) returns the
sentinel INT_MAX; del(k) on an absent key returns the sentinel, leaves
the table and size unchanged; on a successful removal del(k) unlinks the
first matching entry, decrements size by one, and returns the removed
value. -/
theorem del_get_symmetry (m : Map) (k : Int)
    (hnd : (keys (bucketOf m (idx k m.capacity))).Nodup) :
    (get (del m k).2 k).1 = INT_MAX ∧
    (k ∉ keys (bucketOf m (idx k m.capacity)) →
      (del m k).1 = INT_MAX ∧ (del m k).2.table = m.table ∧
      (del m k).2.size = m.size) ∧
    (k ∈ keys (bucketOf m (idx k m.capacity)) →
      (del m k).1 = aget (bucketOf m (idx k m.capacity)) k ∧
      (del m k).2.table = m.table.set (idx k m.capacity)
        (removeFirst k (bucketOf m (idx k m.capacity))) ∧
      (del m k).2.size = m.size - 1) := by
  refine ⟨?_, fun hmem => ⟨(del_not_found hmem).1, (del_not_found hmem).2.1,
      (del_not_found hmem).2.2.2.1⟩,
    fun hmem => ⟨(del_found hmem).1, (del_found hmem).2.1,
      (del_found hmem).2.2.2.1⟩⟩
  by_cases hmem : k ∈ keys (bucketOf m (idx k m.capacity))
  · obtain ⟨h1, h2, h3, h4, _, _⟩ := del_found hmem
    have hne : bucketOf m (idx k m.capacity) ≠ [] := by
      intro he; rw [he] at hmem; simp [keys] at hmem
    have hitab : idx k m.capacity < m.table.length := by
      by_contra hge
      push_neg at hge
      exact hne (getD_len_le _ _ _ hge)
    rw [(get_char (del m k).2 k).1, mlookup_eq,
      show bucketOf (del m k).2 (idx k (del m k).2.capacity)
        = (del m k).2.table.getD (idx k (del m k).2.capacity) [] from rfl, h2, h3,
      getD_set_self _ _ _ _ hitab]
    exact aget_removeFirst_self hnd
  · obtain ⟨h1, h2, h3, h4, _, _⟩ := del_not_found hmem
    rw [(get_char (del m k).2 k).1, mlookup_eq,
      show bucketOf (del m k).2 (idx k (del m k).2.capacity)
        = (del m k).2.table.getD (idx k (del m k).2.capacity) [] from rfl, h2, h3]
    exact aget_not_mem hmem

theorem del_get_symmetry_witness :
    (keys (bucketOf wmap (idx 5 wmap.capacity))).Nodup ∧
    ((get (del wmap 5).2 5).1 = INT_MAX ∧
     (5 ∉ keys (bucketOf wmap (idx 5 wmap.capacity)) →
       (del wmap 5).1 = INT_MAX ∧ (del wmap 5).2.table = wmap.table ∧
       (del wmap 5).2.size = wmap.size) ∧
     (5 ∈ keys (bucketOf wmap (idx 5 wmap.capacity)) →
       (del wmap 5).1 = aget (bucketOf wmap (idx 5 wmap.capacity)) 5 ∧
       (del wmap 5).2.table = wmap.table.set (idx 5 wmap.capacity)
         (removeFirst 5 (bucketOf wmap (idx 5 wmap.capacity))) ∧
       (del wmap 5).2.size = wmap.size - 1)) :=
  ⟨by decide, del_get_symmetry wmap 5 (by decide)⟩

/-- C7: in every state reachable from a freshly constructed map by any
sequence of put/get/del operations, at most one entry with any given key
exists across all buckets. -/
theorem reachable_no_duplicate_keys (m : Map) (h : Reachable m) (k : Int) :
    countKey m k ≤ 1 :=
  countKey_le_one (reachable_mapInv h) k

theorem reachable_no_duplicate_keys_witness :
    Reachable wmap ∧ countKey wmap 5 ≤ 1 :=
  ⟨⟨4, [Op.oput 1 10, Op.oput 5 20], by decide, rfl⟩,
    reachable_no_duplicate_keys wmap ⟨4, [Op.oput 1 10, Op.oput 5 20], by decide, rfl⟩ 5⟩

/-- C8: in every reachable state the size field equals the exact total
count of entries across all bucket chains; put increments it exactly when
the key is new, del decrements it exactly when the key is removed, and
get never changes it. -/
theorem size_counts_entries (m : Map) (h : Reachable m) :
    m.size = (totalCount m : Int) ∧
    (∀ k v, ((put m k v).2).size
      = if k ∈ keys (bucketOf m (idx k m.capacity)) then m.size else m.size + 1) ∧
    (∀ k, ((del m k).2).size
      = if k ∈ keys (bucketOf m (idx k m.capacity)) then m.size - 1 else m.size) ∧
    (∀ k, ((get m k).2).size = m.size) := by
  refine ⟨(reachable_mapInv h).2.2.2.2, ?_, ?_, fun k => (get_char m k).2.2.2.1⟩
  · intro k v
    by_cases hmem : k ∈ keys (bucketOf m (idx k m.capacity))
    · rw [if_pos hmem]
      exact (put_found v hmem).2.2.2.1
    · rw [if_neg hmem]
      exact (put_new v hmem).2.2.2.1
  · intro k
    by_cases hmem : k ∈ keys (bucketOf m (idx k m.capacity))
    · rw [if_pos hmem]
      exact (del_found hmem).2.2.2.1
    · rw [if_neg hmem]
      exact (del_not_found hmem).2.2.2.1

theorem size_counts_entries_witness :
    Reachable wmap ∧
    (wmap.size = (totalCount wmap : Int) ∧
     (∀ k v, ((put wmap k v).2).size
       = if k ∈ keys (bucketOf wmap (idx k wmap.capacity)) then wmap.size
         else wmap.size + 1) ∧
     (∀ k, ((del wmap k).2).size
       = if k ∈ keys (bucketOf wmap (idx k wmap.capacity)) then wmap.size - 1
         else wmap.size) ∧
     (∀ k, ((get wmap k).2).size = wmap.size)) :=
  ⟨⟨4, [Op.oput 1 10, Op.oput 5 20], by decide, rfl⟩,
    size_counts_entries wmap ⟨4, [Op.oput 1 10, Op.oput 5 20], by decide, rfl⟩⟩

/-- C9: for every integer key, including negative keys, and every
positive capacity, the bucket index unsigned(key) mod capacity computed
by get, put and del is a natural number strictly below the capacity, so
table and bucket-lock indexing is in bounds. -/
theorem bucket_index_in_bounds (key : Int) (capacity : Nat) (h : 0 < capacity) :
    idx key capacity < capacity :=
  idx_lt key h

theorem bucket_index_in_bounds_witness :
    0 < 4 ∧ idx (-5) 4 < 4 :=
  ⟨by decide, bucket_index_in_bounds (-5) 4 (by decide)⟩

/-- C10: every single call to get, put or del increments the operation
counter numOps by exactly one and leaves the active-operation counter
numThreads unchanged at return — acquireBucketAccess and
releaseBucketAccess are each executed exactly once on every exit path. -/
theorem ops_increment_numOps_preserve_numThreads (m : Map) (k v : Int) :
    ((get m k).2.numOps = m.numOps + 1 ∧ (get m k).2.numThreads = m.numThreads) ∧
    ((put m k v).2.numOps = m.numOps + 1 ∧ (put m k v).2.numThreads = m.numThreads) ∧
    ((del m k).2.numOps = m.numOps + 1 ∧ (del m k).2.numThreads = m.numThreads) := by
  refine ⟨⟨(get_char m k).2.2.2.2.1, (get_char m k).2.2.2.2.2⟩, ?_, ?_⟩
  · by_cases hmem : k ∈ keys (bucketOf m (idx k m.capacity))
    · exact ⟨(put_found v hmem).2.2.2.2.1, (put_found v hmem).2.2.2.2.2⟩
    · exact ⟨(put_new v hmem).2.2.2.2.1, (put_new v hmem).2.2.2.2.2⟩
  · by_cases hmem : k ∈ keys (bucketOf m (idx k m.capacity))
    · exact ⟨(del_found hmem).2.2.2.2.1, (del_found hmem).2.2.2.2.2⟩
    · exact ⟨(del_not_found hmem).2.2.2.2.1, (del_not_found hmem).2.2.2.2.2⟩
